import Mathlib

/-!
Verification development for the audiowmark decoder front-end
(sync finder, speed detector, bit-quality scoring).

Floating-point `double`/`float` values are modelled as exact rationals (`ℚ`);
machine integers index values are modelled as `ℕ`/`ℤ` with the source's
clamping made explicit.  Pure functions are translated directly from the
C++ source; stateful loops become folds or structural recursion.
-/

namespace Audiowmark

/-! ### Bit-quality scoring (src/audiowmark.cc, SyncFinder::bit_quality) -/

/-- The local variable `raw_bit` of `SyncFinder::bit_quality`: `0` when either
magnitude is zero, `1 - umag/dmag` when `umag < dmag`, else `dmag/umag - 1`. -/
def raw_bit (umag dmag : ℚ) : ℚ :=
  if umag = 0 ∨ dmag = 0 then 0
  else if umag < dmag then 1 - umag / dmag
  else dmag / umag - 1

/-- `SyncFinder::bit_quality (float umag, float dmag, int bit)`:
`expect_data_bit = bit & 1`; the result is `raw_bit` when the expected bit is
1 and `-raw_bit` otherwise. -/
def bit_quality (umag dmag : ℚ) (bit : ℕ) : ℚ :=
  if bit % 2 = 1 then raw_bit umag dmag else -raw_bit umag dmag

/-! ### Job splitter (src/wmspeed.cc, split_jobs) -/

/-- `split_jobs (int jobs, int threads)`: while more than `2 * threads` jobs
remain, emit a batch of `threads`; if more than `threads` remain, emit a batch
of `(jobs + 1) / 2`; finally emit the remaining jobs (batches of size zero are
skipped by `update_split_jobs`).  The source loops forever when
`threads == 0 < jobs`; the guard `0 < threads` below restricts the model to
the terminating inputs (the claim assumes `threads ≥ 1`). -/
def split_jobs (jobs threads : ℕ) : List ℕ :=
  if 0 < threads ∧ 2 * threads < jobs then
    threads :: split_jobs (jobs - threads) threads
  else if threads < jobs then
    let h := (jobs + 1) / 2
    h :: (if jobs - h = 0 then [] else [jobs - h])
  else if jobs = 0 then [] else [jobs]
termination_by jobs
decreasing_by omega

theorem split_jobs_sum (jobs threads : ℕ) (ht : 1 ≤ threads) :
    (split_jobs jobs threads).sum = jobs := by
  induction jobs using Nat.strong_induction_on with
  | _ jobs ih =>
    rw [split_jobs]
    by_cases h1 : 0 < threads ∧ 2 * threads < jobs
    · simp only [if_pos h1, List.sum_cons]
      rw [ih (jobs - threads) (by omega)]
      omega
    · rw [if_neg h1]
      by_cases h2 : threads < jobs
      · simp only [if_pos h2]
        by_cases h3 : jobs - (jobs + 1) / 2 = 0
        · simp [h3]; omega
        · simp [h3]; omega
      · rw [if_neg h2]
        by_cases h4 : jobs = 0
        · simp [h4]
        · simp [h4]

theorem split_jobs_le (jobs threads : ℕ) (ht : 1 ≤ threads) :
    ∀ b ∈ split_jobs jobs threads, b ≤ threads := by
  induction jobs using Nat.strong_induction_on with
  | _ jobs ih =>
    intro b hb
    rw [split_jobs] at hb
    by_cases h1 : 0 < threads ∧ 2 * threads < jobs
    · rw [if_pos h1] at hb
      rcases List.mem_cons.mp hb with h | h
      · omega
      · exact ih (jobs - threads) (by omega) b h
    · rw [if_neg h1] at hb
      by_cases h2 : threads < jobs
      · rw [if_pos h2] at hb
        by_cases h3 : jobs - (jobs + 1) / 2 = 0
        · simp [h3] at hb; omega
        · simp [h3] at hb
          rcases hb with h | h <;> omega
      · rw [if_neg h2] at hb
        by_cases h4 : jobs = 0
        · simp [h4] at hb
        · simp [h4] at hb; omega

/-! ### Claim C1: bit_quality piecewise definition, symmetry and examples

The piecewise definition and the symmetry hold.  The spec's concrete
examples are swapped: with `umag = 1, dmag = 1/2` the code takes the
`dmag/umag - 1` branch, giving `-1/2` (not `1/2`); with `umag = 1/2, dmag = 1`
it takes the `1 - umag/dmag` branch giving `1/2` (not `-1/2`). -/

/-- C1 (counterexample): at `umag = 1, dmag = 1/2, bit = 1` the code returns
`-1/2`, contradicting the claim's example `bit_quality(1.0, 0.5, 1) = 0.5`. -/
theorem C1_bit_quality_example_counterexample :
    bit_quality 1 (1/2) 1 = -(1/2) ∧ ¬ bit_quality 1 (1/2) 1 = (1/2 : ℚ) := by
  constructor <;> norm_num [bit_quality, raw_bit]

/-- C1 (amended): `bit_quality` satisfies the reference piecewise definition
(`raw = 0` if a magnitude is zero, `1 - umag/dmag` if `umag < dmag`, else
`dmag/umag - 1`; returned as `raw` for expected bit 1 and `-raw` for expected
bit 0), is antisymmetric in the expected bit, and the concrete values are
`bit_quality 1 1 0 = 0`, `bit_quality (1/2) 1 1 = 1/2`,
`bit_quality 1 (1/2) 1 = -1/2` (the spec's last two examples with the
magnitude arguments exchanged). -/
theorem C1_bit_quality_piecewise :
    (∀ (u d : ℚ) (b : ℕ),
        bit_quality u d b = if b % 2 = 1 then raw_bit u d else -raw_bit u d)
    ∧ (∀ u d : ℚ, (u = 0 ∨ d = 0) → raw_bit u d = 0)
    ∧ (∀ u d : ℚ, u ≠ 0 → d ≠ 0 → u < d → raw_bit u d = 1 - u / d)
    ∧ (∀ u d : ℚ, u ≠ 0 → d ≠ 0 → ¬ u < d → raw_bit u d = d / u - 1)
    ∧ (∀ u d : ℚ, bit_quality u d 0 = - bit_quality u d 1)
    ∧ bit_quality 1 1 0 = 0
    ∧ bit_quality (1/2) 1 1 = 1/2
    ∧ bit_quality 1 (1/2) 1 = -(1/2) := by
  refine ⟨fun u d b => rfl, fun u d h => by simp [raw_bit, h],
    fun u d hu hd hlt => ?_, fun u d hu hd hlt => ?_,
    fun u d => by simp [bit_quality],
    by norm_num [bit_quality, raw_bit],
    by norm_num [bit_quality, raw_bit],
    by norm_num [bit_quality, raw_bit]⟩
  · rw [raw_bit, if_neg (by tauto), if_pos hlt]
  · rw [raw_bit, if_neg (by tauto), if_neg hlt]

/-- C1 witness: the hypothesis-bearing branch equations instantiated at
concrete magnitudes. -/
theorem C1_bit_quality_piecewise_witness :
    raw_bit (1/2 : ℚ) 1 = 1 - (1/2 : ℚ) / 1
    ∧ raw_bit 1 (1/2 : ℚ) = (1/2 : ℚ) / 1 - 1
    ∧ raw_bit (0 : ℚ) 5 = 0 :=
  ⟨C1_bit_quality_piecewise.2.2.1 (1/2) 1 (by norm_num) (by norm_num) (by norm_num),
   C1_bit_quality_piecewise.2.2.2.1 1 (1/2) (by norm_num) (by norm_num) (by norm_num),
   C1_bit_quality_piecewise.2.1 0 5 (Or.inl rfl)⟩

/-! ### Claim C3: bit_quality range and zero set

The zero characterisation holds for all rational magnitudes.  The range
bound `[-1, 1]` requires nonnegative magnitudes: the dB sums fed into
`bit_quality` can be negative, and e.g. `bit_quality (-1) 2 1 = 3/2 > 1`. -/

theorem raw_bit_bounds (u d : ℚ) (hu : 0 ≤ u) (hd : 0 ≤ d) :
    -1 ≤ raw_bit u d ∧ raw_bit u d ≤ 1 := by
  unfold raw_bit
  rcases eq_or_ne u 0 with h0 | h0
  · simp [h0]
  rcases eq_or_ne d 0 with h1 | h1
  · simp [h1]
  rw [if_neg (by tauto)]
  have hu' : 0 < u := hu.lt_of_ne (Ne.symm h0)
  have hd' : 0 < d := hd.lt_of_ne (Ne.symm h1)
  by_cases hlt : u < d
  · rw [if_pos hlt]
    have h2 : 0 < u / d := div_pos hu' hd'
    have h3 : u / d < 1 := (div_lt_one hd').mpr hlt
    constructor <;> linarith
  · rw [if_neg hlt]
    push_neg at hlt
    have h2 : 0 < d / u := div_pos hd' hu'
    have h3 : d / u ≤ 1 := (div_le_one hu').mpr hlt
    constructor <;> linarith

theorem raw_bit_zero_iff (u d : ℚ) :
    raw_bit u d = 0 ↔ u = 0 ∨ d = 0 ∨ u = d := by
  unfold raw_bit
  rcases eq_or_ne u 0 with hu | hu
  · simp [hu]
  rcases eq_or_ne d 0 with hd | hd
  · simp [hd]
  rw [if_neg (by tauto)]
  by_cases hlt : u < d
  · rw [if_pos hlt, sub_eq_zero, eq_comm, div_eq_one_iff_eq hd]
    constructor
    · intro h; exact Or.inr (Or.inr h)
    · rintro (h | h | h)
      · exact absurd h hu
      · exact absurd h hd
      · exact h
  · rw [if_neg hlt, sub_eq_zero, div_eq_one_iff_eq hu]
    constructor
    · intro h; exact Or.inr (Or.inr h.symm)
    · rintro (h | h | h)
      · exact absurd h hu
      · exact absurd h hd
      · exact h.symm

/-- C3 (counterexample): at `umag = -1, dmag = 2, bit = 1` the result is
`3/2`, outside `[-1, 1]`, refuting the claim's unconditional range bound. -/
theorem C3_bit_quality_range_counterexample :
    bit_quality (-1) 2 1 = 3/2 ∧ ¬ (bit_quality (-1) 2 1 ≤ 1) := by
  constructor <;> norm_num [bit_quality, raw_bit]

/-- C3 (amended): for nonnegative magnitudes `bit_quality` lies in `[-1, 1]`,
and (for all magnitudes) it is zero iff `umag = 0` or `dmag = 0` or
`umag = dmag`. -/
theorem C3_bit_quality_range_zero (u d : ℚ) (b : ℕ) :
    (0 ≤ u → 0 ≤ d → -1 ≤ bit_quality u d b ∧ bit_quality u d b ≤ 1)
    ∧ (bit_quality u d b = 0 ↔ u = 0 ∨ d = 0 ∨ u = d) := by
  unfold bit_quality
  by_cases hb : b % 2 = 1
  · rw [if_pos hb]
    exact ⟨fun hu hd => raw_bit_bounds u d hu hd, raw_bit_zero_iff u d⟩
  · rw [if_neg hb]
    refine ⟨fun hu hd => ?_, ?_⟩
    · obtain ⟨h1, h2⟩ := raw_bit_bounds u d hu hd
      constructor <;> linarith
    · rw [neg_eq_zero]
      exact raw_bit_zero_iff u d

/-- C3 witness: at `umag = 1/2, dmag = 1, bit = 0` the amended claim's
hypotheses hold and give `bit_quality (1/2) 1 0 = -1/2 ∈ [-1, 1]` and the
zero characterisation. -/
theorem C3_bit_quality_range_zero_witness :
    (-1 ≤ bit_quality (1/2) 1 0 ∧ bit_quality (1/2) 1 0 ≤ 1)
    ∧ (bit_quality (1/2) 1 0 = 0 ↔ (1/2 : ℚ) = 0 ∨ (1 : ℚ) = 0 ∨ (1/2 : ℚ) = 1) :=
  ⟨(C3_bit_quality_range_zero (1/2) 1 0).1 (by norm_num) (by norm_num),
   (C3_bit_quality_range_zero (1/2) 1 0).2⟩

/-! ### Claim C2: split_jobs -/

/-- C2: for `T ≥ 1` the batches returned by `split_jobs J T` sum to `J` and
none exceeds `T`; the concrete values `split_jobs 65 32 = [32, 17, 16]`,
`split_jobs 36 32 = [18, 18]` and `split_jobs 5 32 = [5]` hold. -/
theorem C2_split_jobs_correct :
    (∀ jobs threads : ℕ, 1 ≤ threads →
      (split_jobs jobs threads).sum = jobs ∧ ∀ b ∈ split_jobs jobs threads, b ≤ threads)
    ∧ split_jobs 65 32 = [32, 17, 16]
    ∧ split_jobs 36 32 = [18, 18]
    ∧ split_jobs 5 32 = [5] :=
  ⟨fun jobs threads ht => ⟨split_jobs_sum jobs threads ht, split_jobs_le jobs threads ht⟩,
   by simp [split_jobs], by simp [split_jobs], by simp [split_jobs]⟩

/-- C2 witness: instantiation at `J = 65, T = 32`. -/
theorem C2_split_jobs_correct_witness :
    (split_jobs 65 32).sum = 65 ∧ ∀ b ∈ split_jobs 65 32, b ≤ 32 :=
  C2_split_jobs_correct.1 65 32 (by norm_num)

/-! ### Speed detector scores (src/wmspeed.cc) -/

/-- `SpeedSync::Score`: an estimated speed and its quality. -/
structure SpeedScore where
  speed : ℚ
  quality : ℚ
deriving DecidableEq

/-- Neighbour quality lookup `get_quality (int pos)` in
`select_n_best_scores`: out-of-range positions yield quality `0.0`. -/
def get_quality (qs : List ℚ) (pos : ℤ) : ℚ :=
  if 0 ≤ pos ∧ pos < qs.length then qs.getD pos.toNat 0 else 0

/-- The peak-selection loop shared by `select_n_best_scores` (wmspeed.cc) and
`sync_select_local_maxima` (audiowmark.cc): position `x` is kept when its
quality is `≥` both neighbours (out-of-range neighbours count as 0); after a
peak the next position is skipped (`x++` inside the loop body).  `fuel` only
makes the recursion structural; it starts at `len` and the invariant
`len ≤ fuel + x` means the `fuel = 0` branch is never the one that stops the
loop. -/
def peaks_go (q : ℤ → ℚ) (len : ℕ) : ℕ → ℕ → List ℕ
  | 0, _ => []
  | fuel + 1, x =>
    if x < len then
      if q ((x : ℤ) - 1) ≤ q x ∧ q ((x : ℤ) + 1) ≤ q x then
        x :: peaks_go q len fuel (x + 2)
      else
        peaks_go q len fuel (x + 1)
    else []

/-- All positions selected by the peak loop, starting at `x = 0`. -/
def peak_positions (q : ℤ → ℚ) (len : ℕ) : List ℕ := peaks_go q len len 0

instance : DecidableRel (fun a b : SpeedScore => a.speed ≤ b.speed) :=
  fun a b => inferInstanceAs (Decidable (a.speed ≤ b.speed))

instance : DecidableRel (fun a b : SpeedScore => b.quality ≤ a.quality) :=
  fun a b => inferInstanceAs (Decidable (b.quality ≤ a.quality))

/-- `select_n_best_scores (vector<Score>& scores, size_t n)`: sort by speed,
keep local quality maxima (double peaks: the first of two equal values),
sort by quality descending, truncate to `n` entries. -/
def select_n_best_scores (scores : List SpeedScore) (n : ℕ) : List SpeedScore :=
  let sorted := List.insertionSort (fun a b => a.speed ≤ b.speed) scores
  let q := get_quality (sorted.map SpeedScore.quality)
  let lmax := (peak_positions q sorted.length).filterMap (fun i => sorted.get? i)
  let lmax_sorted := List.insertionSort (fun a b => b.quality ≤ a.quality) lmax
  if n < lmax_sorted.length then lmax_sorted.take n else lmax_sorted

/-- Per-key data reaching the final loop of `detect_speed`: the scores after
scan3 and the smoothed best speed (`score_smooth_find_best`, whose numeric
value is irrelevant to the filtering claim and is therefore carried as a
field). -/
structure DetectSpeedEntry where
  key : ℕ
  scores : List SpeedScore
  best_speed : ℚ
deriving DecidableEq

/-- `DetectSpeedResult` (key and estimated speed). -/
structure DetectSpeedResult where
  key : ℕ
  speed : ℚ
deriving DecidableEq

/-- `best_quality` accumulation in `detect_speed`: maximum score quality,
starting from 0. -/
def best_quality (scores : List SpeedScore) : ℚ :=
  scores.foldl (fun bq s => max bq s.quality) 0

/-- The final result loop of `detect_speed` (wmspeed.cc): for each key,
push `(key, best_speed)` iff `best_quality > speed_sync_threshold = 0.4`
and `best_speed < 0.9999 ∨ best_speed > 1.0001`. -/
def detect_speed_finalize (entries : List DetectSpeedEntry) : List DetectSpeedResult :=
  entries.foldl
    (fun results e =>
      if 0.4 < best_quality e.scores then
        if e.best_speed < 0.9999 ∨ 1.0001 < e.best_speed then
          results ++ [⟨e.key, e.best_speed⟩]
        else results
      else results)
    []

theorem detect_speed_finalize_aux (r : DetectSpeedResult) :
    ∀ (entries : List DetectSpeedEntry) (acc : List DetectSpeedResult),
      r ∈ entries.foldl
        (fun results e =>
          if 0.4 < best_quality e.scores then
            if e.best_speed < 0.9999 ∨ 1.0001 < e.best_speed then
              results ++ [⟨e.key, e.best_speed⟩]
            else results
          else results) acc →
      r ∈ acc ∨ ∃ e ∈ entries, r.key = e.key ∧ r.speed = e.best_speed
        ∧ 0.4 < best_quality e.scores
        ∧ (e.best_speed < 0.9999 ∨ 1.0001 < e.best_speed) := by
  intro entries
  induction entries with
  | nil => intro acc h; exact Or.inl h
  | cons e t ih =>
    intro acc h
    rw [List.foldl_cons] at h
    rcases ih _ h with hacc | ⟨e2, he2, hp⟩
    · by_cases h1 : 0.4 < best_quality e.scores
      · rw [if_pos h1] at hacc
        by_cases h2 : e.best_speed < 0.9999 ∨ 1.0001 < e.best_speed
        · rw [if_pos h2] at hacc
          rcases List.mem_append.mp hacc with h3 | h3
          · exact Or.inl h3
          · rcases List.mem_singleton.mp h3 with rfl
            exact Or.inr ⟨e, List.mem_cons_self e t, rfl, rfl, h1, h2⟩
        · rw [if_neg h2] at hacc; exact Or.inl hacc
      · rw [if_neg h1] at hacc; exact Or.inl hacc
    · exact Or.inr ⟨e2, List.mem_cons_of_mem e he2, hp⟩

/-- C4: every entry of `detect_speed`'s result list has a best quality
strictly greater than 0.4 and a speed outside `[0.9999, 1.0001]`; no
entry with in-range speed or quality ≤ 0.4 is ever returned. -/
theorem C4_detect_speed_result_filtered (entries : List DetectSpeedEntry)
    (r : DetectSpeedResult) (hr : r ∈ detect_speed_finalize entries) :
    (r.speed < 0.9999 ∨ 1.0001 < r.speed)
    ∧ ∃ e ∈ entries, r.key = e.key ∧ r.speed = e.best_speed
        ∧ 0.4 < best_quality e.scores := by
  rcases detect_speed_finalize_aux r entries [] hr with h | ⟨e, he, h1, h2, h3, h4⟩
  · exact absurd h (List.not_mem_nil r)
  · exact ⟨by rw [h2]; exact h4, e, he, h1, h2, h3⟩

/-- C4 witness: a single key with best quality 1 and best speed 2 is
returned, and the theorem applies to it. -/
theorem C4_detect_speed_result_filtered_witness :
    ((2 : ℚ) < 0.9999 ∨ (1.0001 : ℚ) < 2)
    ∧ ∃ e ∈ [DetectSpeedEntry.mk 7 [⟨2, 1⟩] 2],
        (7 : ℕ) = e.key ∧ (2 : ℚ) = e.best_speed ∧ 0.4 < best_quality e.scores := by
  have h : DetectSpeedResult.mk 7 2 ∈ detect_speed_finalize [DetectSpeedEntry.mk 7 [⟨2, 1⟩] 2] := by
    simp [detect_speed_finalize, best_quality]
    norm_num
  exact C4_detect_speed_result_filtered [DetectSpeedEntry.mk 7 [⟨2, 1⟩] 2] ⟨7, 2⟩ h

/-! ### Claim C10: select_n_best_scores never returns an empty list -/

theorem peaks_go_ne_nil (q : ℤ → ℚ) (len m : ℕ) (hm : m < len)
    (h1 : q ((m : ℤ) - 1) ≤ q m) (h2 : q ((m : ℤ) + 1) ≤ q m) :
    ∀ (fuel x : ℕ), x ≤ m → len ≤ fuel + x → peaks_go q len fuel x ≠ [] := by
  intro fuel
  induction fuel with
  | zero => intro x hx hlen; omega
  | succ fuel ih =>
    intro x hx hlen
    rw [peaks_go, if_pos (by omega : x < len)]
    by_cases hc : q ((x : ℤ) - 1) ≤ q x ∧ q ((x : ℤ) + 1) ≤ q x
    · rw [if_pos hc]
      exact List.cons_ne_nil _ _
    · rw [if_neg hc]
      have hxm : x ≠ m := by
        rintro rfl
        exact hc ⟨h1, h2⟩
      exact ih (x + 1) (by omega) (by omega)

theorem peaks_go_lt (q : ℤ → ℚ) (len : ℕ) :
    ∀ (fuel x : ℕ), ∀ p ∈ peaks_go q len fuel x, p < len := by
  intro fuel
  induction fuel with
  | zero => intro x p hp; simp [peaks_go] at hp
  | succ fuel ih =>
    intro x p hp
    rw [peaks_go] at hp
    by_cases hx : x < len
    · rw [if_pos hx] at hp
      by_cases hc : q ((x : ℤ) - 1) ≤ q x ∧ q ((x : ℤ) + 1) ≤ q x
      · rw [if_pos hc] at hp
        rcases List.mem_cons.mp hp with rfl | hp
        · exact hx
        · exact ih (x + 2) p hp
      · rw [if_neg hc] at hp
        exact ih (x + 1) p hp
    · rw [if_neg hx] at hp
      simp at hp

theorem exists_max_idx (l : List ℚ) (h : l ≠ []) :
    ∃ m, m < l.length ∧ ∀ k, k < l.length → l.getD k 0 ≤ l.getD m 0 := by
  induction l with
  | nil => exact absurd rfl h
  | cons a t ih =>
    cases t with
    | nil =>
      refine ⟨0, by simp, fun k hk => ?_⟩
      simp at hk
      simp [hk]
    | cons b t2 =>
      obtain ⟨m, hm, hmax⟩ := ih (by simp)
      by_cases hcmp : a ≤ (b :: t2).getD m 0
      · refine ⟨m + 1, by simpa using Nat.succ_lt_succ hm, fun k hk => ?_⟩
        cases k with
        | zero => simpa using hcmp
        | succ k =>
          have hk2 : k < (b :: t2).length := by simpa using hk
          simpa using hmax k hk2
      · refine ⟨0, by simp, fun k hk => ?_⟩
        cases k with
        | zero => simp
        | succ k =>
          have hk2 : k < (b :: t2).length := by simpa using hk
          have := hmax k hk2
          push_neg at hcmp
          simp only [List.getD_cons_succ, List.getD_cons_zero]
          linarith

theorem take_ne_nil {α : Type} (l : List α) (n : ℕ) (h : l ≠ []) (hn : 1 ≤ n) :
    l.take n ≠ [] := by
  cases l with
  | nil => exact absurd rfl h
  | cons a t =>
    cases n with
    | zero => omega
    | succ k => exact List.cons_ne_nil _ _

theorem getD_mem_of_lt (l : List ℚ) (k : ℕ) (hk : k < l.length) :
    l.getD k 0 ∈ l := by
  rw [List.getD_eq_getElem?_getD, List.getElem?_eq_getElem hk]
  exact List.getElem_mem _

/-- C10: for a non-empty score list with nonnegative qualities and `n ≥ 1`,
`select_n_best_scores` returns a non-empty list (out-of-range neighbours
count as quality 0, so the maximum-quality entry always satisfies the peak
condition); hence `detect_speed`'s read of `scores[0]` after
`select_n_best_scores (scores, 1)` is in bounds. -/
theorem C10_select_n_best_scores_ne_nil (scores : List SpeedScore) (n : ℕ)
    (hne : scores ≠ []) (hnn : ∀ s ∈ scores, 0 ≤ s.quality) (hn : 1 ≤ n) :
    select_n_best_scores scores n ≠ [] := by
  unfold select_n_best_scores
  set sorted := List.insertionSort (fun a b => a.speed ≤ b.speed) scores with hsorted
  have hperm : sorted.Perm scores := List.perm_insertionSort _ scores
  have hsne : sorted ≠ [] := by
    intro h0
    rw [h0] at hperm
    exact hne hperm.nil_eq.symm
  set quals := sorted.map SpeedScore.quality with hquals
  have hqlen : quals.length = sorted.length := List.length_map sorted _
  have hqne : quals ≠ [] := by
    intro h0
    apply hsne
    rwa [hquals, List.map_eq_nil_iff] at h0
  have hqnn : ∀ a ∈ quals, 0 ≤ a := by
    intro a ha
    rw [hquals] at ha
    obtain ⟨s, hs, rfl⟩ := List.mem_map.mp ha
    exact hnn s (hperm.subset hs)
  obtain ⟨m, hm, hmax⟩ := exists_max_idx quals hqne
  have hql : ∀ pos : ℤ, get_quality quals pos ≤ get_quality quals m := by
    have hqm : get_quality quals m = quals.getD m 0 := by
      rw [get_quality, if_pos ⟨Int.ofNat_nonneg m, by exact_mod_cast hm⟩, Int.toNat_ofNat]
    intro pos
    rw [get_quality]
    by_cases hin : 0 ≤ pos ∧ pos < quals.length
    · rw [if_pos hin, hqm]
      exact hmax pos.toNat (by omega)
    · rw [if_neg hin, hqm]
      exact hqnn _ (getD_mem_of_lt quals m hm)
  have hpeaks : peak_positions (get_quality quals) sorted.length ≠ [] := by
    rw [peak_positions]
    exact peaks_go_ne_nil (get_quality quals) sorted.length m (hqlen ▸ hm)
      (hql _) (hql _) sorted.length 0 (Nat.zero_le m) (by omega)
  set peaks := peak_positions (get_quality quals) sorted.length with hpk
  obtain ⟨p, rest, hcons⟩ := List.exists_cons_of_ne_nil hpeaks
  have hplt : p < sorted.length := by
    apply peaks_go_lt (get_quality quals) sorted.length sorted.length 0
    rw [← peak_positions, ← hpk, hcons]
    exact List.mem_cons_self p rest
  have hlmax : (peaks.filterMap (fun i => sorted.get? i)) ≠ [] := by
    rw [hcons, List.filterMap_cons]
    rcases h : sorted.get? p with _ | s
    · rw [List.get?_eq_none] at h
      omega
    · simp
  set lmax := peaks.filterMap (fun i => sorted.get? i) with hlm
  set lmax_sorted := List.insertionSort (fun a b => b.quality ≤ a.quality) lmax with hls
  have hlsne : lmax_sorted ≠ [] := by
    intro h0
    apply hlmax
    have := List.perm_insertionSort (fun a b : SpeedScore => b.quality ≤ a.quality) lmax
    rw [hls] at h0
    rw [h0] at this
    exact this.nil_eq.symm
  by_cases htr : n < lmax_sorted.length
  · rw [if_pos htr]
    exact take_ne_nil lmax_sorted n hlsne hn
  · rw [if_neg htr]
    exact hlsne

/-- C10 witness: a singleton list with quality 1 and `n = 1` yields a
non-empty result. -/
theorem C10_select_n_best_scores_ne_nil_witness :
    select_n_best_scores [⟨1, 1⟩] 1 ≠ [] :=
  C10_select_n_best_scores_ne_nil [⟨1, 1⟩] 1 (by simp)
    (by intro s hs; rw [List.mem_singleton] at hs; rw [hs]; norm_num) le_rfl

/-! ### Sync pattern builder (src/audiowmark.cc, SyncFinder::get_sync_bits) -/

/-- `SyncFinder::FrameBit`: frame index within the pattern plus up/down band
offset lists. -/
structure FrameBit where
  frame : ℕ
  up : List ℤ
  down : List ℤ
deriving DecidableEq

/-- `SyncFinder::Mode`. -/
inductive Mode
  | BLOCK
  | CLIP
deriving DecidableEq

/-- The deterministic inputs `get_sync_bits` reads: the parameters
`Params::sync_bits`, `Params::sync_frames_per_bit`, `Params::min_band`,
`first_block_end = mark_sync_frame_count() + mark_data_frame_count()`, and
the two key-seeded streams `UpDownGen::get` (up and down band lists) and
`BitPosGen::sync_frame`.  The streams live in wmcommon/random.cc (outside the
given sources) and are abstract functions of their index here; the claim
quantifies over every key, which this generality subsumes. -/
structure SyncPatternParams where
  sync_bits : ℕ
  sync_frames_per_bit : ℕ
  min_band : ℤ
  first_block_end : ℕ
  up_gen : ℕ → List ℤ
  down_gen : ℕ → List ℤ
  sync_frame : ℕ → ℕ

/-- `block_count = mode == Mode::CLIP ? 2 : 1`. -/
def block_count : Mode → ℕ
  | Mode.BLOCK => 1
  | Mode.CLIP => 2

/-- The body of the innermost loop of `get_sync_bits`: one `FrameBit` for
stream index `idx` and block number `block`; block 0 uses the up/down lists
as drawn, later blocks swap them; both lists are band-shifted by `-min_band`
and sorted; the frame is shifted by `block * first_block_end`. -/
def mk_frame_bit (P : SyncPatternParams) (idx block : ℕ) : FrameBit :=
  { frame := P.sync_frame idx + block * P.first_block_end,
    up := List.insertionSort (· ≤ ·)
      ((if block = 0 then P.up_gen idx else P.down_gen idx).map (· - P.min_band)),
    down := List.insertionSort (· ≤ ·)
      ((if block = 0 then P.down_gen idx else P.up_gen idx).map (· - P.min_band)) }

instance : DecidableRel (fun f1 f2 : FrameBit => f1.frame ≤ f2.frame) :=
  fun f1 f2 => inferInstanceAs (Decidable (f1.frame ≤ f2.frame))

/-- `SyncFinder::get_sync_bits (const Key& key, Mode mode)`: for each sync
bit, all `sync_frames_per_bit × block_count` frame bits, sorted by frame. -/
def get_sync_bits (P : SyncPatternParams) (mode : Mode) : List (List FrameBit) :=
  (List.range P.sync_bits).map fun bit =>
    List.insertionSort (fun f1 f2 => f1.frame ≤ f2.frame)
      ((List.range P.sync_frames_per_bit).flatMap fun f =>
        (List.range (block_count mode)).map fun block =>
          mk_frame_bit P (f + bit * P.sync_frames_per_bit) block)

theorem flatMap_const_length {α β : Type} (l : List α) (f : α → List β) (k : ℕ)
    (h : ∀ a ∈ l, (f a).length = k) : (l.flatMap f).length = l.length * k := by
  induction l with
  | nil => simp
  | cons a t ih =>
    rw [List.flatMap_cons, List.length_append, h a (List.mem_cons_self a t),
      ih (fun x hx => h x (List.mem_cons_of_mem a hx)), List.length_cons]
    ring

theorem mk_frame_bit_swap (P : SyncPatternParams) (idx : ℕ) :
    mk_frame_bit P idx 1 =
      { frame := (mk_frame_bit P idx 0).frame + P.first_block_end,
        up := (mk_frame_bit P idx 0).down,
        down := (mk_frame_bit P idx 0).up } := by
  simp [mk_frame_bit]

theorem get_sync_bits_inner_perm (P : SyncPatternParams) (mode : Mode) (bit : ℕ) :
    (List.insertionSort (fun f1 f2 : FrameBit => f1.frame ≤ f2.frame)
      ((List.range P.sync_frames_per_bit).flatMap fun f =>
        (List.range (block_count mode)).map fun block =>
          mk_frame_bit P (f + bit * P.sync_frames_per_bit) block)).Perm
      ((List.range P.sync_frames_per_bit).flatMap fun f =>
        (List.range (block_count mode)).map fun block =>
          mk_frame_bit P (f + bit * P.sync_frames_per_bit) block) :=
  List.perm_insertionSort _ _

/-- C5: `get_sync_bits` returns `sync_bits` inner lists in both modes; each
BLOCK inner list has `sync_frames_per_bit` frame bits and each CLIP inner
list has `2 * sync_frames_per_bit`; and for every BLOCK frame bit of bit
`b` the CLIP list for bit `b` also contains the frame bit shifted by
`first_block_end` with up and down lists exchanged; up and down lists are
sorted ascending. -/
theorem C5_get_sync_bits_structure (P : SyncPatternParams) :
    ((get_sync_bits P Mode.BLOCK).length = P.sync_bits)
    ∧ ((get_sync_bits P Mode.CLIP).length = P.sync_bits)
    ∧ (∀ l ∈ get_sync_bits P Mode.BLOCK, l.length = P.sync_frames_per_bit)
    ∧ (∀ l ∈ get_sync_bits P Mode.CLIP, l.length = 2 * P.sync_frames_per_bit)
    ∧ (∀ pr ∈ (get_sync_bits P Mode.BLOCK).zip (get_sync_bits P Mode.CLIP),
        ∀ fb ∈ pr.1,
          (FrameBit.mk (fb.frame + P.first_block_end) fb.down fb.up ∈ pr.2)
          ∧ fb.up.Sorted (· ≤ ·) ∧ fb.down.Sorted (· ≤ ·)) := by
  refine ⟨by simp [get_sync_bits], by simp [get_sync_bits], ?_, ?_, ?_⟩
  · intro l hl
    rw [get_sync_bits] at hl
    obtain ⟨bit, _, rfl⟩ := List.mem_map.mp hl
    rw [(List.perm_insertionSort _ _).length_eq]
    rw [flatMap_const_length _ _ (block_count Mode.BLOCK)
      (fun f _ => by simp), List.length_range]
    simp [block_count]
  · intro l hl
    rw [get_sync_bits] at hl
    obtain ⟨bit, _, rfl⟩ := List.mem_map.mp hl
    rw [(List.perm_insertionSort _ _).length_eq]
    rw [flatMap_const_length _ _ (block_count Mode.CLIP)
      (fun f _ => by simp), List.length_range]
    simp [block_count]
    ring
  · intro pr hpr fb hfb
    rw [get_sync_bits, get_sync_bits, List.zip_map'] at hpr
    obtain ⟨bit, _, rfl⟩ := List.mem_map.mp hpr
    simp only at hfb
    have hfb2 := (List.perm_insertionSort
      (fun f1 f2 : FrameBit => f1.frame ≤ f2.frame) _).subset hfb
    obtain ⟨f, hf, hfb3⟩ := List.mem_flatMap.mp hfb2
    have hmap1 : (List.range (block_count Mode.BLOCK)).map
        (fun block => mk_frame_bit P (f + bit * P.sync_frames_per_bit) block) =
        [mk_frame_bit P (f + bit * P.sync_frames_per_bit) 0] := rfl
    rw [hmap1, List.mem_singleton] at hfb3
    subst hfb3
    refine ⟨?_, ?_, ?_⟩
    · apply (List.perm_insertionSort
        (fun f1 f2 : FrameBit => f1.frame ≤ f2.frame) _).mem_iff.mpr
      apply List.mem_flatMap.mpr
      refine ⟨f, hf, ?_⟩
      rw [show block_count Mode.CLIP = 2 from rfl]
      have h2 : (List.range 2).map
          (fun block => mk_frame_bit P (f + bit * P.sync_frames_per_bit) block) =
          [mk_frame_bit P (f + bit * P.sync_frames_per_bit) 0,
           mk_frame_bit P (f + bit * P.sync_frames_per_bit) 1] := rfl
      rw [h2]
      rw [mk_frame_bit_swap]
      simp
    · exact List.sorted_insertionSort _ _
    · exact List.sorted_insertionSort _ _

/-- C5 witness: a concrete one-bit pattern with one frame per bit; the swapped
CLIP copy of the BLOCK frame bit is exhibited. -/
theorem C5_get_sync_bits_structure_witness :
    (FrameBit.mk ((3 : ℕ) + 7) [(-1 : ℤ), 4] [(2 : ℤ), 3]
      ∈ (Prod.mk
          [FrameBit.mk 3 [(2 : ℤ), 3] [(-1 : ℤ), 4]]
          [FrameBit.mk 3 [(2 : ℤ), 3] [(-1 : ℤ), 4],
           FrameBit.mk 10 [(-1 : ℤ), 4] [(2 : ℤ), 3]]).2)
    ∧ ([(2 : ℤ), 3] : List ℤ).Sorted (· ≤ ·)
    ∧ ([(-1 : ℤ), 4] : List ℤ).Sorted (· ≤ ·) := by
  have hthm := (C5_get_sync_bits_structure
    ⟨1, 1, 1, 7, fun _ => [4, 3], fun _ => [5, 0], fun i => 3 + i⟩).2.2.2.2
  have h1 : (get_sync_bits ⟨1, 1, 1, 7, fun _ => [4, 3], fun _ => [5, 0], fun i => 3 + i⟩
      Mode.BLOCK).zip
      (get_sync_bits ⟨1, 1, 1, 7, fun _ => [4, 3], fun _ => [5, 0], fun i => 3 + i⟩
      Mode.CLIP) =
      [([FrameBit.mk 3 [(2 : ℤ), 3] [(-1 : ℤ), 4]],
        [FrameBit.mk 3 [(2 : ℤ), 3] [(-1 : ℤ), 4],
         FrameBit.mk 10 [(-1 : ℤ), 4] [(2 : ℤ), 3]])] := by
    simp [get_sync_bits, mk_frame_bit, block_count]
    decide
  have h2 := hthm _ (by rw [h1]; exact List.mem_singleton.mpr rfl)
    (FrameBit.mk 3 [(2 : ℤ), 3] [(-1 : ℤ), 4]) (List.mem_singleton.mpr rfl)
  exact h2

/-! ### Local mean (src/audiowmark.cc, search_approx lines 1309-1329) -/

/-- `local_mean_distance = 20` (syncfinder.hh). -/
def local_mean_distance : ℤ := 20

/-- In-range lookup `idx >= 0 && idx < scores.size()` of a raw quality. -/
def lm_lookup (qs : List ℚ) (idx : ℤ) : Option ℚ :=
  if 0 ≤ idx ∧ idx < qs.length then some (qs.getD idx.toNat 0) else none

/-- The loop range `j = -local_mean_distance .. local_mean_distance`. -/
def jRange : List ℤ := (List.range 41).map (fun j : ℕ => (j : ℤ) - 20)

/-- One iteration of the local-mean loop: skip `|j| < 4`, otherwise add the
neighbour's raw quality when in range and count it. -/
def lm_step (qs : List ℚ) (i : ℤ) (acc : ℚ × ℕ) (j : ℤ) : ℚ × ℕ :=
  if 4 ≤ j.natAbs then
    match lm_lookup qs (i + j) with
    | some q => (acc.1 + q, acc.2 + 1)
    | none => acc
  else acc

/-- The local-mean computation of `search_approx` for the score at position
`i` of the (index-sorted) raw-quality list `qs`: `avg` and `n` accumulated
over the `j` loop, divided when `n > 0`. -/
def compute_local_mean (qs : List ℚ) (i : ℤ) : ℚ :=
  let r := jRange.foldl (lm_step qs i) (0, 0)
  if 0 < r.2 then r.1 / r.2 else r.1

/-- The qualifying neighbours named by the claim: raw qualities at in-range
positions `i + j` with `4 ≤ |j| ≤ 20` (the `|j| ≤ 20` bound is the content
of `jRange`, certified separately in the claim theorem). -/
def local_mean_neighbors (qs : List ℚ) (i : ℤ) : List ℚ :=
  jRange.filterMap (fun j => if 4 ≤ j.natAbs then lm_lookup qs (i + j) else none)

/-- The claim's description of the local mean: the plain average of the
qualifying neighbours, `0` when there are none. -/
def local_mean_spec (qs : List ℚ) (i : ℤ) : ℚ :=
  if local_mean_neighbors qs i = [] then 0
  else (local_mean_neighbors qs i).sum / (local_mean_neighbors qs i).length

theorem lm_fold_eq (qs : List ℚ) (i : ℤ) :
    ∀ (js : List ℤ) (acc : ℚ × ℕ),
      js.foldl (lm_step qs i) acc =
        (acc.1 + (js.filterMap
          (fun j => if 4 ≤ j.natAbs then lm_lookup qs (i + j) else none)).sum,
         acc.2 + (js.filterMap
          (fun j => if 4 ≤ j.natAbs then lm_lookup qs (i + j) else none)).length) := by
  intro js
  induction js with
  | nil => intro acc; simp
  | cons j t ih =>
    intro acc
    rw [List.foldl_cons, ih, List.filterMap_cons]
    by_cases h4 : 4 ≤ j.natAbs
    · rw [if_pos h4]
      rcases hl : lm_lookup qs (i + j) with _ | q
      · simp [lm_step, if_pos h4, hl]
      · simp only [lm_step, if_pos h4, hl, List.sum_cons, List.length_cons]
        rw [Prod.mk.injEq]
        exact ⟨by ring, by omega⟩
    · rw [if_neg h4]
      simp [lm_step, if_neg h4]

theorem lm_fold_congr (qs qs' : List ℚ) (i : ℤ)
    (h : ∀ j : ℤ, 4 ≤ j.natAbs → lm_lookup qs (i + j) = lm_lookup qs' (i + j)) :
    ∀ (js : List ℤ) (acc : ℚ × ℕ),
      js.foldl (lm_step qs i) acc = js.foldl (lm_step qs' i) acc := by
  intro js
  induction js with
  | nil => intro acc; rfl
  | cons j t ih =>
    intro acc
    rw [List.foldl_cons, List.foldl_cons, ← ih]
    congr 1
    unfold lm_step
    by_cases h4 : 4 ≤ j.natAbs
    · rw [if_pos h4, if_pos h4, h j h4]
    · rw [if_neg h4, if_neg h4]

/-- C6: the local mean computed by `search_approx` for position `i` equals
the average of the raw qualities at in-range positions `i + j` with
`4 ≤ |j| ≤ 20` and is `0` when no neighbour qualifies; the loop range is
exactly `-20 ≤ j ≤ 20`; and scores at distance at most 3 (the score itself
included) never contribute: the result only depends on the lookups at
distance at least 4. -/
theorem C6_local_mean (qs : List ℚ) (i : ℤ) :
    (compute_local_mean qs i = local_mean_spec qs i)
    ∧ (local_mean_neighbors qs i = [] → compute_local_mean qs i = 0)
    ∧ (∀ j : ℤ, j ∈ jRange ↔ -20 ≤ j ∧ j ≤ 20)
    ∧ (∀ qs' : List ℚ,
        (∀ k : ℤ, k < i - 3 ∨ i + 3 < k → lm_lookup qs k = lm_lookup qs' k) →
        compute_local_mean qs i = compute_local_mean qs' i) := by
  have hmain : compute_local_mean qs i = local_mean_spec qs i := by
    rw [compute_local_mean, local_mean_spec]
    rw [lm_fold_eq qs i jRange (0, 0)]
    simp only [zero_add]
    rcases hnb : local_mean_neighbors qs i with _ | ⟨a, t⟩
    · rw [local_mean_neighbors] at hnb
      rw [hnb]
      simp
    · rw [local_mean_neighbors] at hnb
      rw [hnb]
      simp only [List.length_cons, if_neg (List.cons_ne_nil a t)]
      rw [if_pos (Nat.succ_pos t.length)]
  refine ⟨hmain, ?_, ?_, ?_⟩
  · intro h
    rw [hmain, local_mean_spec, if_pos h]
  · intro j
    rw [jRange]
    constructor
    · intro hj
      obtain ⟨k, hk, rfl⟩ := List.mem_map.mp hj
      rw [List.mem_range] at hk
      omega
    · intro ⟨h1, h2⟩
      apply List.mem_map.mpr
      refine ⟨(j + 20).toNat, List.mem_range.mpr (by omega), by omega⟩
  · intro qs' h
    rw [compute_local_mean, compute_local_mean,
      lm_fold_congr qs qs' i (fun j hj => h (i + j) (by omega)) jRange (0, 0)]

/-- C6 witness: for `qs = [1, 2, 3, 4, 5, 6]` and `i = 0` the qualifying
neighbours are positions 4 and 5, giving mean `11/2`; for `qs = [1, 2]` no
neighbour qualifies and the local mean is `0`; the congruence instance is
applied with `qs' = qs`. -/
theorem C6_local_mean_witness :
    compute_local_mean [1, 2, 3, 4, 5, 6] 0 = local_mean_spec [1, 2, 3, 4, 5, 6] 0
    ∧ compute_local_mean [1, 2, 3, 4, 5, 6] 0 = 11/2
    ∧ compute_local_mean [1, 2] 0 = 0
    ∧ compute_local_mean [1, 2] 0 = compute_local_mean [1, 2] 0 := by
  refine ⟨(C6_local_mean [1, 2, 3, 4, 5, 6] 0).1, ?_, ?_,
    (C6_local_mean [1, 2] 0).2.2.2 [1, 2] (fun k hk => rfl)⟩
  · norm_num [compute_local_mean, jRange, lm_step, lm_lookup, List.range_succ,
      Int.toNat]
  · exact (C6_local_mean [1, 2] 0).2.1
      (by norm_num [local_mean_neighbors, jRange, lm_lookup, List.range_succ])

/-! ### Fine refinement (src/audiowmark.cc, SyncFinder::search_refine) -/

/-- `SyncFinder::SearchScore`: sample index, raw quality and stored local
mean. -/
structure SearchScore where
  index : ℕ
  raw_quality : ℚ
  local_mean : ℚ
deriving DecidableEq

/-- `SearchScore::abs_quality() = fabs (raw_quality - local_mean)`. -/
def score_abs_quality (s : SearchScore) : ℚ := |s.raw_quality - s.local_mean|

/-- The fine sweep grid of `search_refine`:
`fine_index = start, start + fine, …, ≤ end` with
`start = max (index - step, 0)` (natural subtraction models the clamp) and
`end = index + step`. -/
def refine_grid (index step fine : ℕ) : List ℕ :=
  (List.range ((index + step - (index - step)) / fine + 1)).map
    (fun k => (index - step) + k * fine)

/-- One step of the refinement loop: `q fi` is
`sync_decode (sync_bits, 0, fft_db, have_frames)` at `fine_index = fi`, or
`none` when `sync_fft` returned an empty `fft_db` (window past the end);
the best pair is replaced when `|q - local_mean|` strictly improves. -/
def refine_step (q : ℕ → Option ℚ) (lm : ℚ) (best : ℕ × ℚ) (fi : ℕ) : ℕ × ℚ :=
  match q fi with
  | none => best
  | some v => if |best.2 - lm| < |v - lm| then (fi, v) else best

/-- The per-candidate body of `search_refine`: sweep the grid, starting from
the candidate's own index and quality, and keep the stored local mean. -/
def refine_score (q : ℕ → Option ℚ) (step fine : ℕ) (s : SearchScore) : SearchScore :=
  let best := (refine_grid s.index step fine).foldl (refine_step q s.local_mean)
    (s.index, s.raw_quality)
  ⟨best.1, best.2, s.local_mean⟩

theorem refine_fold_ge (q : ℕ → Option ℚ) (lm : ℚ) :
    ∀ (l : List ℕ) (init : ℕ × ℚ),
      |init.2 - lm| ≤ |(l.foldl (refine_step q lm) init).2 - lm|
      ∧ ∀ fi ∈ l, ∀ v, q fi = some v →
          |v - lm| ≤ |(l.foldl (refine_step q lm) init).2 - lm| := by
  intro l
  induction l with
  | nil =>
    intro init
    exact ⟨le_refl _, by simp⟩
  | cons fi t ih =>
    intro init
    rw [List.foldl_cons]
    have hstep : |init.2 - lm| ≤ |(refine_step q lm init fi).2 - lm| := by
      rw [refine_step]
      rcases q fi with _ | v
      · exact le_refl _
      · simp only
        by_cases h : |init.2 - lm| < |v - lm|
        · rw [if_pos h]; exact le_of_lt h
        · rw [if_neg h]
    refine ⟨le_trans hstep (ih (refine_step q lm init fi)).1, ?_⟩
    intro fj hfj v hv
    rcases List.mem_cons.mp hfj with rfl | hfj2
    · have h2 : |v - lm| ≤ |(refine_step q lm init fj).2 - lm| := by
        rw [refine_step, hv]
        simp only
        by_cases h : |init.2 - lm| < |v - lm|
        · rw [if_pos h]
        · rw [if_neg h]; linarith [not_lt.mp h]
      exact le_trans h2 (ih (refine_step q lm init fj)).1
    · exact (ih (refine_step q lm init fi)).2 fj hfj2 v hv

theorem refine_fold_provenance (q : ℕ → Option ℚ) (lm : ℚ) :
    ∀ (l : List ℕ) (init : ℕ × ℚ),
      l.foldl (refine_step q lm) init = init
      ∨ ∃ fi ∈ l, q fi = some (l.foldl (refine_step q lm) init).2
          ∧ (l.foldl (refine_step q lm) init).1 = fi := by
  intro l
  induction l with
  | nil => intro init; exact Or.inl rfl
  | cons fi t ih =>
    intro init
    rw [List.foldl_cons]
    rcases ih (refine_step q lm init fi) with heq | ⟨fj, hfj, hq, hidx⟩
    · rw [heq, refine_step]
      rcases hv : q fi with _ | v
      · exact Or.inl rfl
      · simp only
        by_cases h : |init.2 - lm| < |v - lm|
        · rw [if_pos h]
          exact Or.inr ⟨fi, List.mem_cons_self fi t, hv, rfl⟩
        · rw [if_neg h]
          exact Or.inl rfl
    · exact Or.inr ⟨fj, List.mem_cons_of_mem fi hfj, hq, hidx⟩

theorem refine_fold_no_improve (q : ℕ → Option ℚ) (lm : ℚ) :
    ∀ (l : List ℕ) (init : ℕ × ℚ),
      (∀ fi ∈ l, ∀ v, q fi = some v → ¬ |init.2 - lm| < |v - lm|) →
      l.foldl (refine_step q lm) init = init := by
  intro l
  induction l with
  | nil => intro init _; rfl
  | cons fi t ih =>
    intro init h
    rw [List.foldl_cons]
    have hstep : refine_step q lm init fi = init := by
      rw [refine_step]
      rcases hv : q fi with _ | v
      · rfl
      · simp only
        rw [if_neg (h fi (List.mem_cons_self fi t) v hv)]
    rw [hstep]
    exact ih init (fun fj hfj v hv => h fj (List.mem_cons_of_mem fi hfj) v hv)

theorem refine_grid_mem (index step fine : ℕ) (_hfine : 1 ≤ fine) (x : ℕ) :
    x ∈ refine_grid index step fine ↔
      index - step ≤ x ∧ x ≤ index + step ∧ (x - (index - step)) % fine = 0 := by
  rw [refine_grid]
  constructor
  · intro hx
    obtain ⟨k, hk, rfl⟩ := List.mem_map.mp hx
    rw [List.mem_range] at hk
    have hk2 : k ≤ (index + step - (index - step)) / fine := by omega
    have h3 : k * fine ≤ ((index + step - (index - step)) / fine) * fine :=
      Nat.mul_le_mul_right fine hk2
    have h4 : ((index + step - (index - step)) / fine) * fine ≤
        index + step - (index - step) := Nat.div_mul_le_self _ _
    refine ⟨Nat.le_add_right _ _, by omega, ?_⟩
    rw [Nat.add_sub_cancel_left]
    exact Nat.mul_mod_left k fine
  · rintro ⟨h1, h2, h3⟩
    apply List.mem_map.mpr
    refine ⟨(x - (index - step)) / fine, ?_, ?_⟩
    · rw [List.mem_range]
      have h5 : (x - (index - step)) / fine ≤ (index + step - (index - step)) / fine :=
        Nat.div_le_div_right (by omega)
      omega
    · have h6 : fine ∣ (x - (index - step)) := Nat.dvd_of_mod_eq_zero h3
      rw [Nat.div_mul_cancel h6]
      omega

/-- C7: the refinement of a candidate score keeps the stored local mean
unchanged; its raw quality is at least as far from the local mean as the
original quality and as every decoded value on the sweep grid; the result is
either the unchanged candidate or a grid point together with its decoded
value; when no grid point strictly improves, the candidate is returned
unchanged; and (for `fine ≥ 1`) the sweep grid is exactly
`{x | index - step ≤ x ≤ index + step, x ≡ index - step (mod fine)}`, where
`index - step` is clamped at 0. -/
theorem C7_search_refine_candidate (q : ℕ → Option ℚ) (step fine : ℕ) (s : SearchScore) :
    ((refine_score q step fine s).local_mean = s.local_mean)
    ∧ (|s.raw_quality - s.local_mean| ≤
        |(refine_score q step fine s).raw_quality - s.local_mean|)
    ∧ (∀ fi ∈ refine_grid s.index step fine, ∀ v, q fi = some v →
        |v - s.local_mean| ≤
          |(refine_score q step fine s).raw_quality - s.local_mean|)
    ∧ (((refine_score q step fine s).index = s.index
        ∧ (refine_score q step fine s).raw_quality = s.raw_quality)
       ∨ ∃ fi ∈ refine_grid s.index step fine,
           q fi = some (refine_score q step fine s).raw_quality
           ∧ (refine_score q step fine s).index = fi)
    ∧ ((∀ fi ∈ refine_grid s.index step fine, ∀ v, q fi = some v →
          ¬ |s.raw_quality - s.local_mean| < |v - s.local_mean|) →
        refine_score q step fine s = s)
    ∧ (1 ≤ fine → ∀ x : ℕ, x ∈ refine_grid s.index step fine ↔
        s.index - step ≤ x ∧ x ≤ s.index + step
        ∧ (x - (s.index - step)) % fine = 0) := by
  refine ⟨rfl, ?_, ?_, ?_, ?_, fun hf x => refine_grid_mem s.index step fine hf x⟩
  · exact (refine_fold_ge q s.local_mean (refine_grid s.index step fine)
      (s.index, s.raw_quality)).1
  · exact (refine_fold_ge q s.local_mean (refine_grid s.index step fine)
      (s.index, s.raw_quality)).2
  · rcases refine_fold_provenance q s.local_mean (refine_grid s.index step fine)
      (s.index, s.raw_quality) with heq | ⟨fi, hfi, hq, hidx⟩
    · left
      constructor
      · simp [refine_score, heq]
      · simp [refine_score, heq]
    · right
      exact ⟨fi, hfi, hq, hidx⟩
  · intro h
    rw [refine_score]
    simp only [refine_fold_no_improve q s.local_mean (refine_grid s.index step fine)
      (s.index, s.raw_quality) h]

/-- C7 witness: with `q` decoding only fine index 6 (value 5), `step = 2`,
`fine = 2` and candidate `(index 4, quality 1, mean 0)`, the sweep grid is
`[2, 4, 6]`, the refinement moves to `(6, 5)` keeping local mean 0, and the
grid characterisation holds at `x = 6`. -/
theorem C7_search_refine_candidate_witness :
    ((refine_score (fun n => if n = 6 then some 5 else none) 2 2 ⟨4, 1, 0⟩).local_mean
      = (SearchScore.mk 4 1 0).local_mean)
    ∧ (|(5 : ℚ) - (0 : ℚ)| ≤
        |(refine_score (fun n => if n = 6 then some 5 else none) 2 2
          ⟨4, 1, 0⟩).raw_quality - (0 : ℚ)|)
    ∧ ((6 : ℕ) ∈ refine_grid 4 2 2 ↔
        4 - 2 ≤ (6 : ℕ) ∧ (6 : ℕ) ≤ 4 + 2 ∧ ((6 : ℕ) - (4 - 2)) % 2 = 0)
    ∧ refine_score (fun n => if n = 6 then some 5 else none) 2 2 ⟨4, 9, 0⟩
        = ⟨4, 9, 0⟩ := by
  have hthm := C7_search_refine_candidate
    (fun n => if n = 6 then some 5 else none) 2 2 ⟨4, 1, 0⟩
  have hgrid : refine_grid 4 2 2 = [2, 4, 6] := by
    simp [refine_grid, List.range_succ]
  refine ⟨hthm.1, ?_, hthm.2.2.2.2.2 (by norm_num) 6, ?_⟩
  · exact hthm.2.2.1 6 (by rw [hgrid]; norm_num) 5 (by norm_num)
  · apply (C7_search_refine_candidate
      (fun n => if n = 6 then some 5 else none) 2 2 ⟨4, 9, 0⟩).2.2.2.2.1
    intro fi hfi v hv
    rw [hgrid] at hfi
    simp only [List.mem_cons, List.not_mem_nil, or_false] at hfi
    rcases hfi with rfl | rfl | rfl
    · simp at hv
    · simp at hv
    · simp at hv
      subst hv
      norm_num

/-! ### The sync-search pipeline (src/audiowmark.cc, SyncFinder::search)

`search_approx` appends one `SearchScore` per (sync shift, start frame) pair
under a mutex — the append order depends on scheduling — and then sorts by
index and fills in local means.  The selection steps, refinement and final
conversion are deterministic list transformations.  The nondeterministic
appends are modelled by quantifying over permutations of the generated
lists. -/

instance : DecidableRel (fun a b : SearchScore => a.index ≤ b.index) :=
  fun a b => inferInstanceAs (Decidable (a.index ≤ b.index))

instance : DecidableRel (fun a b : SearchScore =>
    score_abs_quality b ≤ score_abs_quality a) :=
  fun a b => inferInstanceAs (Decidable (score_abs_quality b ≤ score_abs_quality a))

instance : IsTotal SearchScore (fun a b => a.index ≤ b.index) :=
  ⟨fun a b => Nat.le_total a.index b.index⟩

instance : IsTrans SearchScore (fun a b => a.index ≤ b.index) :=
  ⟨fun _ _ _ h1 h2 => le_trans h1 h2⟩

instance : IsTotal SearchScore (fun a b => score_abs_quality b ≤ score_abs_quality a) :=
  ⟨fun a b => le_total (score_abs_quality b) (score_abs_quality a)⟩

instance : IsTrans SearchScore (fun a b => score_abs_quality b ≤ score_abs_quality a) :=
  ⟨fun _ _ _ h1 h2 => le_trans h2 h1⟩

/-- `std::sort` by ascending index (used after `search_approx` and
`search_refine` and before emitting results). -/
def sortByIndex (l : List SearchScore) : List SearchScore :=
  List.insertionSort (fun a b => a.index ≤ b.index) l

/-- `std::sort` by descending `abs_quality` (used by the threshold/n-best
selectors). -/
def sortByQualityDesc (l : List SearchScore) : List SearchScore :=
  List.insertionSort (fun a b => score_abs_quality b ≤ score_abs_quality a) l

/-- The local-mean pass of `search_approx`: each score of the (index-sorted)
list receives the local mean computed from the raw qualities. -/
def set_local_means (l : List SearchScore) : List SearchScore :=
  (List.range l.length).map fun i =>
    let s := l.getD i ⟨0, 0, 0⟩
    ⟨s.index, s.raw_quality, compute_local_mean (l.map SearchScore.raw_quality) i⟩

/-- `SyncFinder::sync_select_local_maxima`: keep scores whose `abs_quality`
is ≥ both neighbours, skipping the position after each kept peak. -/
def sync_select_local_maxima (l : List SearchScore) : List SearchScore :=
  (peak_positions (get_quality (l.map score_abs_quality)) l.length).filterMap
    (fun i => l.get? i)

/-- `quality_sign` in `sync_mask_avg_false_positives`:
`-1` when `raw_quality - local_mean < 0`, else `1`. -/
def quality_sign (s : SearchScore) : ℤ :=
  if s.raw_quality - s.local_mean < 0 then -1 else 1

/-- `mask_distance = local_mean_distance + 3 = 23`. -/
def mask_distance : ℤ := local_mean_distance + 3

/-- The loop range `d = -mask_distance .. mask_distance`. -/
def dRange : List ℤ := (List.range 47).map (fun d : ℕ => (d : ℤ) - 23)

/-- The mask test of `sync_mask_avg_false_positives` for peak `i`: masked when
some other in-range peak `j = i + d` within `mask_distance` (both in the peak
list and in sample space, the latter measured in `sync_search_step` units)
has more than 3 times the `abs_quality` and the opposite quality sign. -/
def masked_at (l : List SearchScore) (step : ℕ) (i : ℕ) : Bool :=
  dRange.any fun d =>
    let j := (i : ℤ) + d
    if (i : ℤ) ≠ j ∧ 0 ≤ j ∧ j < l.length then
      let si := l.getD i ⟨0, 0, 0⟩
      let sj := l.getD j.toNat ⟨0, 0, 0⟩
      let distance := ((si.index : ℤ) - (sj.index : ℤ)).natAbs / step
      decide ((distance : ℤ) ≤ mask_distance)
        && decide (score_abs_quality si * 3 < score_abs_quality sj)
        && decide (quality_sign sj ≠ quality_sign si)
    else false

/-- `SyncFinder::sync_mask_avg_false_positives`. -/
def sync_mask_avg_false_positives (step : ℕ) (l : List SearchScore) : List SearchScore :=
  (List.range l.length).filterMap fun i =>
    if masked_at l step i then none else l.get? i

/-- `SyncFinder::sync_select_threshold_and_n_best`: sort by quality
descending; keep every score above the threshold, but at least
`Params::get_n_best` scores when available. -/
def sync_select_threshold_and_n_best (threshold : ℚ) (n_best : ℕ)
    (l : List SearchScore) : List SearchScore :=
  let sorted := sortByQualityDesc l
  let i := (sorted.takeWhile (fun s => decide (threshold < score_abs_quality s))).length
  if n_best ≤ i then sorted.take i
  else if n_best < sorted.length then sorted.take n_best
  else sorted

/-- `SyncFinder::sync_select_truncate_n`. -/
def sync_select_truncate_n (n : ℕ) (l : List SearchScore) : List SearchScore :=
  let sorted := sortByQualityDesc l
  if n < sorted.length then sorted.take n else sorted

/-- `ConvBlockType` (convcode.hh): block polarity A or B. -/
inductive ConvBlockType
  | a
  | b
deriving DecidableEq

/-- `SyncFinder::Score`: emitted index, `|raw - local_mean|` quality and
block type (`a` when `raw - local_mean > 0`, else `b`). -/
structure SyncScore where
  index : ℕ
  quality : ℚ
  block_type : ConvBlockType
deriving DecidableEq

/-- The final conversion loop of `SyncFinder::search`. -/
def to_sync_scores (l : List SearchScore) : List SyncScore :=
  l.map fun s =>
    ⟨s.index, |s.raw_quality - s.local_mean|,
     if 0 < s.raw_quality - s.local_mean then ConvBlockType.a else ConvBlockType.b⟩

/-- The deterministic selection steps of `SyncFinder::search` between
`search_approx` and `search_refine`: sort by index, fill local means, select
local maxima, mask false positives, apply threshold `sync_threshold2 * 0.75`
with n-best, and in CLIP mode truncate to `max (get_n_best, 5)`. -/
def search_pre_refine (step : ℕ) (t2 : ℚ) (n_best : ℕ) (mode : Mode)
    (approx_appended : List SearchScore) : List SearchScore :=
  let s0 := set_local_means (sortByIndex approx_appended)
  let s1 := sync_select_local_maxima s0
  let s2 := sync_mask_avg_false_positives step s1
  let s3 := sync_select_threshold_and_n_best (t2 * (3/4)) n_best s2
  if mode = Mode.CLIP then sync_select_truncate_n (max n_best 5) s3 else s3

/-- The steps of `SyncFinder::search` after the refine jobs have appended
their results (in scheduling order): sort by index, threshold
`sync_threshold2` with n-best, sort by index, convert. -/
def search_post_refine (t2 : ℚ) (n_best : ℕ)
    (refined_appended : List SearchScore) : List SyncScore :=
  to_sync_scores (sortByIndex
    (sync_select_threshold_and_n_best t2 n_best (sortByIndex refined_appended)))

/-- The refine phase output in the deterministic (map) order: one refined
score per surviving candidate. -/
def refined_of (q : ℕ → Option ℚ) (step fine : ℕ) (t2 : ℚ) (n_best : ℕ)
    (mode : Mode) (approx_appended : List SearchScore) : List SearchScore :=
  (search_pre_refine step t2 n_best mode approx_appended).map (refine_score q step fine)

/-- One run of the modelled `search` for one key: `approx_appended` is the
coarse score list in the order the approx jobs appended it; `reorder` is the
order in which the refine jobs appended their results (a permutation of the
deterministic refine output for any real schedule). -/
def search_with_appends (q : ℕ → Option ℚ) (step fine : ℕ) (t2 : ℚ) (n_best : ℕ)
    (mode : Mode) (approx_appended : List SearchScore)
    (reorder : List SearchScore → List SearchScore) : List SyncScore :=
  search_post_refine t2 n_best
    (reorder (refined_of q step fine t2 n_best mode approx_appended))

/-! ### Coarse score generation (search_approx / sync_fft_parallel) -/

/-- The sync-shift loop of `search_approx`:
`sync_shift = 0, sync_search_step, …, < frame_size`. -/
def shift_list (frame_size step : ℕ) : List ℕ :=
  (List.range ((frame_size + step - 1) / step)).map (· * step)

/-- The start frames scored by `search_approx`: those with
`(start_frame + total_frame_count) * n_bands < fft_db.size()`. -/
def qualifying_start_frames (total n_bands fcnt fftSize : ℕ) : List ℕ :=
  (List.range fcnt).filter (fun sf => decide ((sf + total) * n_bands < fftSize))

/-- The multiset of coarse scores produced by `search_approx` for one key
(`qual` abstracts the `sync_decode` value as a function of shift and start
frame; the real appends produce these in arbitrary order, which the theorems
model by permutations): `index = start_frame * frame_size + sync_shift`,
`local_mean = 0`. -/
def approx_scores (qual : ℕ → ℕ → ℚ) (frame_size step total n_bands fcnt fftSize : ℕ) :
    List SearchScore :=
  (shift_list frame_size step).flatMap fun shift =>
    (qualifying_start_frames total n_bands fcnt fftSize).map fun sf =>
      ⟨sf * frame_size + shift, qual shift sf, 0⟩

/-- Modelled from the spec: `frame_count (wav_data)` (defined in wmcommon.cc,
outside the given sources) — the number of whole `frame_size`-sample frames
in the signal. -/
def frame_count (n_frames frame_size : ℕ) : ℕ := n_frames / frame_size

/-- The total size of `fft_db` produced by `sync_fft_parallel`: jobs start at
`c = 0, 256, …, < frame_count` and each computes
`frames = min (frame_count - 1 - c) 256` frames (skipped when zero),
contributing `n_bands * frames` dB values unless its `sync_fft` failed
(window past the end), which `ok` models. -/
def fft_total_size (ok : ℕ → Bool) (n_bands fcnt c : ℕ) : ℕ :=
  if c < fcnt then
    (if 0 < min (fcnt - 1 - c) 256 ∧ ok c then n_bands * min (fcnt - 1 - c) 256 else 0)
      + fft_total_size ok n_bands fcnt (c + 256)
  else 0
termination_by fcnt - c
decreasing_by omega

/-- The early-exit of `detect_speed` (wmspeed.cc): inputs shorter than 0.25
seconds return the empty result list before any scan pass runs
(`continue_results` stands for the value the remainder of the function would
compute). -/
def detect_speed_guard (n_frames sample_rate : ℕ)
    (continue_results : List DetectSpeedResult) : List DetectSpeedResult :=
  if (n_frames : ℚ) / (sample_rate : ℚ) < 1/4 then [] else continue_results

/-! ### Claim C8: inputs shorter than 0.25 s -/

theorem fft_total_size_le (ok : ℕ → Bool) (n_bands fcnt : ℕ) :
    ∀ c, fft_total_size ok n_bands fcnt c ≤ n_bands * (fcnt - c) := by
  have key : ∀ k c, fcnt - c ≤ k →
      fft_total_size ok n_bands fcnt c ≤ n_bands * (fcnt - c) := by
    intro k
    induction k with
    | zero =>
      intro c hc
      rw [fft_total_size, if_neg (by omega)]
      exact Nat.zero_le _
    | succ k ih =>
      intro c hc
      rw [fft_total_size]
      by_cases h : c < fcnt
      · rw [if_pos h]
        have h2 := ih (c + 256) (by omega)
        by_cases hok : 0 < min (fcnt - 1 - c) 256 ∧ ok c = true
        · rw [if_pos hok]
          have hm : min (fcnt - 1 - c) 256 + (fcnt - (c + 256)) ≤ fcnt - c := by omega
          calc n_bands * min (fcnt - 1 - c) 256 + fft_total_size ok n_bands fcnt (c + 256)
              ≤ n_bands * min (fcnt - 1 - c) 256 + n_bands * (fcnt - (c + 256)) :=
                Nat.add_le_add_left h2 _
            _ = n_bands * (min (fcnt - 1 - c) 256 + (fcnt - (c + 256))) :=
                (Nat.mul_add _ _ _).symm
            _ ≤ n_bands * (fcnt - c) := Nat.mul_le_mul_left _ hm
        · rw [if_neg hok, Nat.zero_add]
          exact le_trans h2 (Nat.mul_le_mul_left _ (by omega))
      · rw [if_neg h]
        exact Nat.zero_le _
  intro c
  exact key (fcnt - c) c le_rfl

theorem flatMap_nil_fun {α β : Type} (l : List α) :
    (l.flatMap fun _ => ([] : List β)) = [] := by
  induction l with
  | nil => rfl
  | cons a t ih => rw [List.flatMap_cons, ih]; rfl

theorem sync_select_threshold_and_n_best_nil (t : ℚ) (n : ℕ) :
    sync_select_threshold_and_n_best t n [] = [] := by
  unfold sync_select_threshold_and_n_best sortByQualityDesc
  cases n <;> simp

theorem sync_select_truncate_n_nil (n : ℕ) :
    sync_select_truncate_n n [] = [] := by
  unfold sync_select_truncate_n sortByQualityDesc
  cases n <;> simp

theorem search_pre_refine_nil (step : ℕ) (t2 : ℚ) (n_best : ℕ) (mode : Mode) :
    search_pre_refine step t2 n_best mode [] = [] := by
  have h0 : sortByIndex [] = [] := rfl
  have h1 : set_local_means [] = [] := rfl
  have h2 : sync_select_local_maxima [] = [] := rfl
  have h3 : sync_mask_avg_false_positives step [] = [] := rfl
  simp only [search_pre_refine]
  rw [h0, h1, h2, h3, sync_select_threshold_and_n_best_nil]
  split
  · rw [sync_select_truncate_n_nil]
  · rfl

theorem search_post_refine_nil (t2 : ℚ) (n_best : ℕ) :
    search_post_refine t2 n_best [] = [] := by
  unfold search_post_refine
  have h0 : sortByIndex [] = [] := rfl
  rw [h0, sync_select_threshold_and_n_best_nil, h0]
  rfl

/-- C8: when the signal is shorter than 0.25 s (`n_frames / sample_rate <
1/4`), `detect_speed` returns the empty list, and — given the block length
exceeds 0.25 s (`sample_rate ≤ 4 * total_frame_count * frame_size`; the
comment in wmspeed.cc puts one block above 30 s) — no start frame fits,
`search_approx` produces no score, and the whole per-key search pipeline
returns the empty score list. -/
theorem C8_short_input_empty (n_frames sample_rate frame_size total n_bands step fine : ℕ)
    (t2 : ℚ) (n_best : ℕ) (mode : Mode) (q : ℕ → Option ℚ) (qual : ℕ → ℕ → ℚ)
    (ok : ℕ → Bool) (res : List DetectSpeedResult)
    (hrate : 0 < sample_rate)
    (hshort : (n_frames : ℚ) / (sample_rate : ℚ) < 1/4)
    (hframe : 0 < frame_size)
    (hblock : sample_rate ≤ 4 * (total * frame_size)) :
    detect_speed_guard n_frames sample_rate res = []
    ∧ approx_scores qual frame_size step total n_bands
        (frame_count n_frames frame_size)
        (fft_total_size ok n_bands (frame_count n_frames frame_size) 0) = []
    ∧ search_post_refine t2 n_best
        (refined_of q step fine t2 n_best mode
          (approx_scores qual frame_size step total n_bands
            (frame_count n_frames frame_size)
            (fft_total_size ok n_bands (frame_count n_frames frame_size) 0))) = [] := by
  have hsr : (0 : ℚ) < (sample_rate : ℚ) := by exact_mod_cast hrate
  have h1 := (div_lt_iff₀ hsr).mp hshort
  have h2 : ((4 * n_frames : ℕ) : ℚ) < ((sample_rate : ℕ) : ℚ) := by
    push_cast
    linarith
  have h4 : 4 * n_frames < sample_rate := by exact_mod_cast h2
  have hnf : n_frames < total * frame_size := by omega
  have hfcnt : frame_count n_frames frame_size ≤ total := by
    rw [frame_count]
    exact le_of_lt ((Nat.div_lt_iff_lt_mul hframe).mpr (by omega))
  have hqual : qualifying_start_frames total n_bands (frame_count n_frames frame_size)
      (fft_total_size ok n_bands (frame_count n_frames frame_size) 0) = [] := by
    rw [qualifying_start_frames, List.filter_eq_nil_iff]
    intro sf _
    simp only [decide_eq_true_eq]
    push_neg
    have hb1 : fft_total_size ok n_bands (frame_count n_frames frame_size) 0 ≤
        n_bands * frame_count n_frames frame_size := by
      have := fft_total_size_le ok n_bands (frame_count n_frames frame_size) 0
      simpa using this
    have hb2 : n_bands * frame_count n_frames frame_size ≤ n_bands * (sf + total) :=
      Nat.mul_le_mul_left _ (by omega)
    calc fft_total_size ok n_bands (frame_count n_frames frame_size) 0
        ≤ n_bands * (sf + total) := le_trans hb1 hb2
      _ = (sf + total) * n_bands := Nat.mul_comm _ _
  have happrox : approx_scores qual frame_size step total n_bands
      (frame_count n_frames frame_size)
      (fft_total_size ok n_bands (frame_count n_frames frame_size) 0) = [] := by
    rw [approx_scores, hqual]
    exact flatMap_nil_fun _
  refine ⟨?_, happrox, ?_⟩
  · rw [detect_speed_guard, if_pos hshort]
  · rw [happrox, refined_of, search_pre_refine_nil, List.map_nil,
      search_post_refine_nil]

/-- C8 witness: a 0.1 s signal (100 frames at 1000 Hz) with 4-sample frames
and a 70-frame block satisfies every hypothesis, and the guard, the coarse
score list and the pipeline output are all empty. -/
theorem C8_short_input_empty_witness :
    detect_speed_guard 100 1000 [⟨3, 2⟩] = []
    ∧ approx_scores (fun _ _ => 0) 4 2 70 2 (frame_count 100 4)
        (fft_total_size (fun _ => true) 2 (frame_count 100 4) 0) = []
    ∧ search_post_refine 1 3
        (refined_of (fun _ => none) 2 1 1 3 Mode.BLOCK
          (approx_scores (fun _ _ => 0) 4 2 70 2 (frame_count 100 4)
            (fft_total_size (fun _ => true) 2 (frame_count 100 4) 0))) = [] :=
  C8_short_input_empty 100 1000 4 70 2 2 1 1 3 Mode.BLOCK
    (fun _ => none) (fun _ _ => 0) (fun _ => true) [⟨3, 2⟩]
    (by norm_num) (by norm_num) (by norm_num) (by norm_num)

/-! ### Claim C9: determinism of search across append orders

Sorting by index canonicalises any append order when the sort keys are
pairwise distinct.  The coarse indices `start_frame * frame_size +
sync_shift` always are (proved below), but two refined candidates can land
on the same fine index; with an exact `abs_quality` tie their relative order
in the output then depends on the order in which the refine jobs appended
their results, so the unconditional claim fails. -/

instance : IsAntisymm SearchScore (fun a b => a.index < b.index) :=
  ⟨fun _ _ h1 h2 => absurd h2 (Nat.lt_asymm h1)⟩

theorem sortByIndex_sorted (l : List SearchScore) :
    (sortByIndex l).Sorted (fun a b => a.index ≤ b.index) :=
  List.sorted_insertionSort _ l

theorem sortByIndex_perm (l : List SearchScore) : (sortByIndex l).Perm l :=
  List.perm_insertionSort _ l

/-- Index-sorting is append-order independent when indices are pairwise
distinct. -/
theorem sortByIndex_eq_of_perm (l1 l2 : List SearchScore) (hperm : l1.Perm l2)
    (hnd : (l1.map SearchScore.index).Nodup) :
    sortByIndex l1 = sortByIndex l2 := by
  have hp : (sortByIndex l1).Perm (sortByIndex l2) :=
    (sortByIndex_perm l1).trans (hperm.trans (sortByIndex_perm l2).symm)
  have hnd1 : ((sortByIndex l1).map SearchScore.index).Nodup :=
    (((sortByIndex_perm l1).map SearchScore.index).nodup_iff).mpr hnd
  have hnd2 : ((sortByIndex l2).map SearchScore.index).Nodup :=
    ((hp.map SearchScore.index).nodup_iff).mp hnd1
  have hlt1 : (sortByIndex l1).Sorted (fun a b => a.index < b.index) := by
    have hpw := List.pairwise_map.mp hnd1
    exact ((sortByIndex_sorted l1).and hpw).imp
      (fun h => lt_of_le_of_ne h.1 h.2)
  have hlt2 : (sortByIndex l2).Sorted (fun a b => a.index < b.index) := by
    have hpw := List.pairwise_map.mp hnd2
    exact ((sortByIndex_sorted l2).and hpw).imp
      (fun h => lt_of_le_of_ne h.1 h.2)
  exact List.eq_of_perm_of_sorted hp hlt1 hlt2

theorem shift_list_lt (fs st : ℕ) : ∀ sh ∈ shift_list fs st, sh < fs := by
  intro sh hsh
  rw [shift_list] at hsh
  obtain ⟨k, hk, rfl⟩ := List.mem_map.mp hsh
  rw [List.mem_range] at hk
  rcases Nat.eq_zero_or_pos st with hst | hst
  · subst hst
    simp at hk
  · have h1 : k + 1 ≤ (fs + st - 1) / st := hk
    have h2 : (k + 1) * st ≤ fs + st - 1 :=
      (Nat.le_div_iff_mul_le hst).mp h1
    have h3 : (k + 1) * st = k * st + st := Nat.succ_mul k st
    omega

theorem shift_list_nodup (fs st : ℕ) : (shift_list fs st).Nodup := by
  rw [shift_list]
  rcases Nat.eq_zero_or_pos st with hst | hst
  · subst hst
    simp
  · exact (List.nodup_range _).map
      (fun a b h => Nat.eq_of_mul_eq_mul_right hst h)

theorem grid_index_mod (sf fs sh : ℕ) (hsh : sh < fs) :
    (sf * fs + sh) % fs = sh := by
  rw [Nat.add_comm, Nat.add_mul_mod_self_right]
  exact Nat.mod_eq_of_lt hsh

/-- The coarse indices emitted by `search_approx` for one key are pairwise
distinct: `index mod frame_size` recovers the shift and the quotient the
start frame. -/
theorem approx_scores_index_nodup (qual : ℕ → ℕ → ℚ)
    (frame_size step total n_bands fcnt fftSize : ℕ) :
    ((approx_scores qual frame_size step total n_bands fcnt fftSize).map
      SearchScore.index).Nodup := by
  have hmap : (approx_scores qual frame_size step total n_bands fcnt fftSize).map
      SearchScore.index =
      (shift_list frame_size step).flatMap fun shift =>
        (qualifying_start_frames total n_bands fcnt fftSize).map
          fun sf => sf * frame_size + shift := by
    rw [approx_scores, List.map_flatMap]
    congr 1
    funext shift
    rw [List.map_map]
    rfl
  rw [hmap]
  apply List.nodup_flatMap.mpr
  constructor
  · intro sh hsh
    have hfs : 0 < frame_size := by
      have := shift_list_lt frame_size step sh hsh
      omega
    apply ((List.nodup_range fcnt).filter _).map
    intro a b h
    simp only at h
    have h2 : a * frame_size = b * frame_size := by omega
    exact Nat.eq_of_mul_eq_mul_right hfs h2
  · apply List.Pairwise.imp_of_mem ?_ (shift_list_nodup frame_size step)
    intro a b ha hb hab
    intro x hxa hxb
    obtain ⟨sfa, _, rfl⟩ := List.mem_map.mp hxa
    obtain ⟨sfb, _, hev⟩ := List.mem_map.mp hxb
    have hlta := shift_list_lt frame_size step a ha
    have hltb := shift_list_lt frame_size step b hb
    have hma : (sfa * frame_size + a) % frame_size = a := grid_index_mod _ _ _ hlta
    have hmb : (sfb * frame_size + b) % frame_size = b := grid_index_mod _ _ _ hltb
    rw [hev] at hmb
    exact hab (hma.symm.trans hmb)

/-- C9 (amended): the modelled `search` output is independent of the orders
in which the approx jobs and the refine jobs append their results, provided
the refined candidates have pairwise distinct indices (every sort then has
distinct keys); and the coarse indices produced by `search_approx` are
always pairwise distinct. -/
theorem C9_search_deterministic_amended :
    (∀ (q : ℕ → Option ℚ) (step fine : ℕ) (t2 : ℚ) (n_best : ℕ) (mode : Mode)
       (a1 a2 r1 r2 : List SearchScore),
       a1.Perm a2 →
       (a1.map SearchScore.index).Nodup →
       r1.Perm (refined_of q step fine t2 n_best mode a1) →
       r2.Perm (refined_of q step fine t2 n_best mode a2) →
       ((refined_of q step fine t2 n_best mode a1).map SearchScore.index).Nodup →
       search_post_refine t2 n_best r1 = search_post_refine t2 n_best r2)
    ∧ (∀ (qual : ℕ → ℕ → ℚ) (frame_size step total n_bands fcnt fftSize : ℕ),
        ((approx_scores qual frame_size step total n_bands fcnt fftSize).map
          SearchScore.index).Nodup) := by
  constructor
  · intro q step fine t2 n_best mode a1 a2 r1 r2 hap hand hr1 hr2 hrnd
    have hsort : sortByIndex a1 = sortByIndex a2 := sortByIndex_eq_of_perm a1 a2 hap hand
    have hrefeq : refined_of q step fine t2 n_best mode a1 =
        refined_of q step fine t2 n_best mode a2 := by
      rw [refined_of, refined_of, search_pre_refine, search_pre_refine, hsort]
    have hp1 : r1.Perm r2 := hr1.trans (hrefeq ▸ hr2.symm)
    have hnd1 : (r1.map SearchScore.index).Nodup :=
      ((hr1.map SearchScore.index).nodup_iff).mpr hrnd
    have hsorted : sortByIndex r1 = sortByIndex r2 :=
      sortByIndex_eq_of_perm r1 r2 hp1 hnd1
    rw [search_post_refine, search_post_refine, hsorted]
  · exact approx_scores_index_nodup

set_option maxHeartbeats 4000000 in
/-- C9 amended-claim witness.  First conjunct: two runs on genuinely
different append orders — the approx jobs append `[⟨0,4,0⟩, ⟨2,1,0⟩,
⟨4,5,0⟩]` in one run and its reversal in the other, and the refine jobs
append the two surviving refined candidates (indices 4 and 0, pairwise
distinct) in opposite orders — produce the same output; every permutation
and Nodup hypothesis of the determinism theorem is discharged at these
non-trivial instances.  Second conjunct: the 6 coarse indices
`[0, 4, 8, 2, 6, 10]` of a non-empty approx grid (frame_size 4, step 2,
2 shifts × 3 start frames) are pairwise distinct. -/
theorem C9_search_deterministic_amended_witness :
    search_post_refine (1/2) 3 [⟨4, 5, 0⟩, ⟨0, 4, 0⟩]
      = search_post_refine (1/2) 3 [⟨0, 4, 0⟩, ⟨4, 5, 0⟩]
    ∧ ((approx_scores (fun _ _ => 0) 4 2 1 1 3 100).map SearchScore.index).Nodup := by
  have h0 : sortByIndex [⟨0,4,0⟩, ⟨2,1,0⟩, ⟨4,5,0⟩]
      = [⟨0,4,0⟩, ⟨2,1,0⟩, ⟨4,5,0⟩] := by
    norm_num [sortByIndex]
  have h0r : sortByIndex [⟨4,5,0⟩, ⟨2,1,0⟩, ⟨0,4,0⟩]
      = [⟨0,4,0⟩, ⟨2,1,0⟩, ⟨4,5,0⟩] := by
    norm_num [sortByIndex]
  have h1 : set_local_means [⟨0,4,0⟩, ⟨2,1,0⟩, ⟨4,5,0⟩]
      = [⟨0,4,0⟩, ⟨2,1,0⟩, ⟨4,5,0⟩] := by
    norm_num [set_local_means, compute_local_mean, jRange, lm_step, lm_lookup,
      List.range_succ, Int.toNat]
  have h2 : sync_select_local_maxima [⟨0,4,0⟩, ⟨2,1,0⟩, ⟨4,5,0⟩]
      = [⟨0,4,0⟩, ⟨4,5,0⟩] := by
    norm_num [sync_select_local_maxima, peak_positions, peaks_go, get_quality,
      score_abs_quality, Int.toNat]
    simp
  have hm0 : masked_at [⟨0,4,0⟩, ⟨4,5,0⟩] 2 0 = false := by
    norm_num [masked_at, dRange, mask_distance, local_mean_distance, quality_sign,
      score_abs_quality, List.range_succ, Int.toNat]
  have hm1 : masked_at [⟨0,4,0⟩, ⟨4,5,0⟩] 2 1 = false := by
    norm_num [masked_at, dRange, mask_distance, local_mean_distance, quality_sign,
      score_abs_quality, List.range_succ, Int.toNat]
  have h3 : sync_mask_avg_false_positives 2 [⟨0,4,0⟩, ⟨4,5,0⟩]
      = [⟨0,4,0⟩, ⟨4,5,0⟩] := by
    simp [sync_mask_avg_false_positives, hm0, hm1, List.range_succ,
      List.filterMap_cons, List.filterMap_append]
  have h4 : sync_select_threshold_and_n_best (1/2 * (3/4)) 3 [⟨0,4,0⟩, ⟨4,5,0⟩]
      = [⟨4,5,0⟩, ⟨0,4,0⟩] := by
    norm_num [sync_select_threshold_and_n_best, sortByQualityDesc,
      score_abs_quality]
  have hrf1 : refine_score (fun _ => none) 2 2 ⟨4,5,0⟩ = ⟨4,5,0⟩ := by
    norm_num [refine_score, refine_grid, refine_step, List.range_succ]
  have hrf2 : refine_score (fun _ => none) 2 2 ⟨0,4,0⟩ = ⟨0,4,0⟩ := by
    norm_num [refine_score, refine_grid, refine_step, List.range_succ]
  have hA1 : refined_of (fun _ => none) 2 2 (1/2) 3 Mode.BLOCK
      [⟨0,4,0⟩, ⟨2,1,0⟩, ⟨4,5,0⟩] = [⟨4,5,0⟩, ⟨0,4,0⟩] := by
    rw [refined_of]
    rw [show search_pre_refine 2 (1/2) 3 Mode.BLOCK [⟨0,4,0⟩, ⟨2,1,0⟩, ⟨4,5,0⟩]
        = [⟨4,5,0⟩, ⟨0,4,0⟩] by
      simp only [search_pre_refine]
      rw [h0, h1, h2, h3, h4]
      rfl]
    rw [List.map_cons, List.map_cons, List.map_nil, hrf1, hrf2]
  have hA2 : refined_of (fun _ => none) 2 2 (1/2) 3 Mode.BLOCK
      [⟨4,5,0⟩, ⟨2,1,0⟩, ⟨0,4,0⟩] = [⟨4,5,0⟩, ⟨0,4,0⟩] := by
    rw [refined_of]
    rw [show search_pre_refine 2 (1/2) 3 Mode.BLOCK [⟨4,5,0⟩, ⟨2,1,0⟩, ⟨0,4,0⟩]
        = [⟨4,5,0⟩, ⟨0,4,0⟩] by
      simp only [search_pre_refine]
      rw [h0r, h1, h2, h3, h4]
      rfl]
    rw [List.map_cons, List.map_cons, List.map_nil, hrf1, hrf2]
  constructor
  · apply C9_search_deterministic_amended.1 (fun _ => none) 2 2 (1/2) 3 Mode.BLOCK
      [⟨0,4,0⟩, ⟨2,1,0⟩, ⟨4,5,0⟩] [⟨4,5,0⟩, ⟨2,1,0⟩, ⟨0,4,0⟩]
      [⟨4,5,0⟩, ⟨0,4,0⟩] [⟨0,4,0⟩, ⟨4,5,0⟩]
    · rw [show ([⟨4,5,0⟩, ⟨2,1,0⟩, ⟨0,4,0⟩] : List SearchScore)
          = List.reverse [⟨0,4,0⟩, ⟨2,1,0⟩, ⟨4,5,0⟩] from rfl]
      exact (List.reverse_perm _).symm
    · show ([0, 2, 4] : List ℕ).Nodup
      decide
    · rw [hA1]
    · rw [hA2]
      exact List.Perm.swap _ _ _
    · rw [hA1]
      show ([4, 0] : List ℕ).Nodup
      decide
  · exact C9_search_deterministic_amended.2 (fun _ _ => 0) 4 2 1 1 3 100

set_option maxHeartbeats 8000000 in
/-- C9 (counterexample): a run where two coarse candidates (indices 4 and 8,
with local means 0 and 10 coming from the local-mean pass) both refine to
fine index 6 with decoded value 5.  The two refined scores tie exactly in
`abs_quality` (`|5-0| = |5-10| = 5`) but have opposite block polarity, so
every sort sees equal keys and the output order of the two entries follows
the order in which the refine jobs appended their results: reversing the
append order changes the output, refuting the unconditional determinism
claim.  (`List.reverse` is a permutation, i.e. a legitimate append order.) -/
theorem C9_append_order_counterexample :
    (List.reverse (refined_of (fun fi => if fi = 6 then some (5 : ℚ) else none)
        2 2 (1/2) 3 Mode.BLOCK
        [⟨0, 10, 0⟩, ⟨2, 0, 0⟩, ⟨4, 1, 0⟩, ⟨6, 0, 0⟩, ⟨8, 9, 0⟩])).Perm
      (refined_of (fun fi => if fi = 6 then some (5 : ℚ) else none)
        2 2 (1/2) 3 Mode.BLOCK
        [⟨0, 10, 0⟩, ⟨2, 0, 0⟩, ⟨4, 1, 0⟩, ⟨6, 0, 0⟩, ⟨8, 9, 0⟩])
    ∧ search_with_appends (fun fi => if fi = 6 then some (5 : ℚ) else none)
        2 2 (1/2) 3 Mode.BLOCK
        [⟨0, 10, 0⟩, ⟨2, 0, 0⟩, ⟨4, 1, 0⟩, ⟨6, 0, 0⟩, ⟨8, 9, 0⟩] List.reverse
      ≠ search_with_appends (fun fi => if fi = 6 then some (5 : ℚ) else none)
        2 2 (1/2) 3 Mode.BLOCK
        [⟨0, 10, 0⟩, ⟨2, 0, 0⟩, ⟨4, 1, 0⟩, ⟨6, 0, 0⟩, ⟨8, 9, 0⟩] id := by
  have h0 : sortByIndex [⟨0,10,0⟩, ⟨2,0,0⟩, ⟨4,1,0⟩, ⟨6,0,0⟩, ⟨8,9,0⟩]
      = [⟨0,10,0⟩, ⟨2,0,0⟩, ⟨4,1,0⟩, ⟨6,0,0⟩, ⟨8,9,0⟩] := by
    norm_num [sortByIndex]
  have h1 : set_local_means [⟨0,10,0⟩, ⟨2,0,0⟩, ⟨4,1,0⟩, ⟨6,0,0⟩, ⟨8,9,0⟩]
      = [⟨0,10,9⟩, ⟨2,0,0⟩, ⟨4,1,0⟩, ⟨6,0,0⟩, ⟨8,9,10⟩] := by
    norm_num [set_local_means, compute_local_mean, jRange, lm_step, lm_lookup,
      List.range_succ, Int.toNat]
  have h2 : sync_select_local_maxima [⟨0,10,9⟩, ⟨2,0,0⟩, ⟨4,1,0⟩, ⟨6,0,0⟩, ⟨8,9,10⟩]
      = [⟨0,10,9⟩, ⟨4,1,0⟩, ⟨8,9,10⟩] := by
    norm_num [sync_select_local_maxima, peak_positions, peaks_go, get_quality,
      score_abs_quality, Int.toNat]
    simp
  have hm0 : masked_at [⟨0,10,9⟩, ⟨4,1,0⟩, ⟨8,9,10⟩] 2 0 = false := by
    norm_num [masked_at, dRange, mask_distance, local_mean_distance, quality_sign,
      score_abs_quality, List.range_succ, Int.toNat]
  have hm1 : masked_at [⟨0,10,9⟩, ⟨4,1,0⟩, ⟨8,9,10⟩] 2 1 = false := by
    norm_num [masked_at, dRange, mask_distance, local_mean_distance, quality_sign,
      score_abs_quality, List.range_succ, Int.toNat]
  have hm2 : masked_at [⟨0,10,9⟩, ⟨4,1,0⟩, ⟨8,9,10⟩] 2 2 = false := by
    norm_num [masked_at, dRange, mask_distance, local_mean_distance, quality_sign,
      score_abs_quality, List.range_succ, Int.toNat]
  have h3 : sync_mask_avg_false_positives 2 [⟨0,10,9⟩, ⟨4,1,0⟩, ⟨8,9,10⟩]
      = [⟨0,10,9⟩, ⟨4,1,0⟩, ⟨8,9,10⟩] := by
    simp [sync_mask_avg_false_positives, hm0, hm1, hm2, List.range_succ,
      List.filterMap_cons, List.filterMap_append]
  have h4 : sync_select_threshold_and_n_best (1/2 * (3/4)) 3
      [⟨0,10,9⟩, ⟨4,1,0⟩, ⟨8,9,10⟩] = [⟨0,10,9⟩, ⟨4,1,0⟩, ⟨8,9,10⟩] := by
    norm_num [sync_select_threshold_and_n_best, sortByQualityDesc,
      score_abs_quality]
  have hpre : search_pre_refine 2 (1/2) 3 Mode.BLOCK
      [⟨0,10,0⟩, ⟨2,0,0⟩, ⟨4,1,0⟩, ⟨6,0,0⟩, ⟨8,9,0⟩]
      = [⟨0,10,9⟩, ⟨4,1,0⟩, ⟨8,9,10⟩] := by
    simp only [search_pre_refine]
    rw [h0, h1, h2, h3, h4]
    rfl
  have hr0 : refine_score (fun fi => if fi = 6 then some (5:ℚ) else none) 2 2 ⟨0,10,9⟩
      = ⟨0,10,9⟩ := by
    norm_num [refine_score, refine_grid, refine_step, List.range_succ]
  have hr2 : refine_score (fun fi => if fi = 6 then some (5:ℚ) else none) 2 2 ⟨4,1,0⟩
      = ⟨6,5,0⟩ := by
    norm_num [refine_score, refine_grid, refine_step, List.range_succ]
  have hr4 : refine_score (fun fi => if fi = 6 then some (5:ℚ) else none) 2 2 ⟨8,9,10⟩
      = ⟨6,5,10⟩ := by
    norm_num [refine_score, refine_grid, refine_step, List.range_succ]
  have hrefined : refined_of (fun fi => if fi = 6 then some (5:ℚ) else none)
      2 2 (1/2) 3 Mode.BLOCK [⟨0,10,0⟩, ⟨2,0,0⟩, ⟨4,1,0⟩, ⟨6,0,0⟩, ⟨8,9,0⟩]
      = [⟨0,10,9⟩, ⟨6,5,0⟩, ⟨6,5,10⟩] := by
    rw [refined_of, hpre]
    rw [List.map_cons, List.map_cons, List.map_cons, List.map_nil, hr0, hr2, hr4]
  have hpost_id : search_post_refine (1/2) 3 [⟨0,10,9⟩, ⟨6,5,0⟩, ⟨6,5,10⟩]
      = [⟨0, 1, ConvBlockType.a⟩, ⟨6, 5, ConvBlockType.a⟩, ⟨6, 5, ConvBlockType.b⟩] := by
    norm_num [search_post_refine, sortByIndex, sync_select_threshold_and_n_best,
      sortByQualityDesc, score_abs_quality, to_sync_scores]
  have hpost_rev : search_post_refine (1/2) 3
      (List.reverse [⟨0,10,9⟩, ⟨6,5,0⟩, ⟨6,5,10⟩])
      = [⟨0, 1, ConvBlockType.a⟩, ⟨6, 5, ConvBlockType.b⟩, ⟨6, 5, ConvBlockType.a⟩] := by
    norm_num [search_post_refine, sortByIndex, sync_select_threshold_and_n_best,
      sortByQualityDesc, score_abs_quality, to_sync_scores]
  refine ⟨List.reverse_perm _, ?_⟩
  rw [search_with_appends, search_with_appends, hrefined]
  simp only [id_eq]
  rw [hpost_rev, hpost_id]
  simp

end Audiowmark
